import Mathlib

/-!
Verification development for the Time-Indexed Attribution Engine of the
green-microbench repository.  The Python sources under
`GreenMicrobrenchFramework/` are shallowly embedded: machine floats are
modelled by `ℚ`, Python dicts by insertion-ordered association lists, and
raised exceptions by `Option`/`Except` results.  Timestamp handling
(`datetime.fromisoformat`, `astimezone`, `isoformat`) is modelled by an
executable ISO-8601 parser/printer covering the formats exercised by the
repository (extended date `YYYY-MM-DD`, optional `T`/space separator,
`HH:MM:SS` time with optional 1-6 digit fraction, optional `Z` or
`±HH:MM[:SS]` offset).
-/

namespace GMB

/-- Value of a decimal digit character, `none` on a non-digit
(models `int(c)` failing inside `datetime.fromisoformat`). -/
def digit? (c : Char) : Option ℕ :=
  if c.isDigit then some (c.toNat - 48) else none

/-- Two-digit decimal field. -/
def digit2 (a b : Char) : Option ℕ :=
  match digit? a, digit? b with
  | some x, some y => some (10 * x + y)
  | _, _ => none

/-- Four-digit decimal field. -/
def digit4 (a b c d : Char) : Option ℕ :=
  match digit? a, digit? b, digit? c, digit? d with
  | some w, some x, some y, some z => some (1000 * w + 100 * x + 10 * y + z)
  | _, _, _, _ => none

/-- Gregorian leap-year rule (as used by `datetime.date`). -/
def isLeapYear (y : ℕ) : Bool :=
  y % 4 == 0 && (y % 100 != 0 || y % 400 == 0)

/-- Number of days in a month (as used by `datetime.date` validation). -/
def daysInMonth (y m : ℕ) : ℕ :=
  if m = 2 then (if isLeapYear y then 29 else 28)
  else if m = 4 ∨ m = 6 ∨ m = 9 ∨ m = 11 then 30
  else 31

/-- Model of a Python `datetime.datetime` value: calendar fields plus an
optional fixed UTC offset in seconds (`None` = naive datetime). -/
structure PyDateTime where
  year : ℕ
  month : ℕ
  day : ℕ
  hour : ℕ
  minute : ℕ
  second : ℕ
  microsecond : ℕ
  utcoffset : Option ℤ
deriving DecidableEq, Repr

/-- Leading run of decimal digits of a character list, with the rest. -/
def takeDigits : List Char → List ℕ × List Char
  | [] => ([], [])
  | c :: cs =>
    match digit? c with
    | some v => let p := takeDigits cs; (v :: p.1, p.2)
    | none => ([], c :: cs)

/-- Fractional-second part after the dot: 1-6 digits, scaled to
microseconds (model of `fromisoformat`). -/
def parseFrac (cs : List Char) : Option (ℕ × List Char) :=
  let p := takeDigits cs
  if 1 ≤ p.1.length ∧ p.1.length ≤ 6 then
    some (p.1.foldl (fun a v => a * 10 + v) 0 * 10 ^ (6 - p.1.length), p.2)
  else none

/-- Trailing UTC-offset part: empty (naive), `Z`, or `±HH:MM[:SS]`;
result offset in seconds (model of `fromisoformat` offset handling). -/
def parseOffset : List Char → Option (Option ℤ)
  | [] => some none
  | [c] => if c = 'Z' then some (some 0) else none
  | c :: h1 :: h2 :: c2 :: m1 :: m2 :: rest =>
    if (c = '+' ∨ c = '-') ∧ c2 = ':' then
      match digit2 h1 h2, digit2 m1 m2 with
      | some oh, some om =>
        match rest with
        | [] =>
          if oh ≤ 23 ∧ om ≤ 59 then
            some (some ((if c = '-' then -1 else 1) * (3600 * oh + 60 * om)))
          else none
        | c3 :: s1 :: s2 :: rest2 =>
          if c3 = ':' ∧ rest2 = [] then
            match digit2 s1 s2 with
            | some os =>
              if oh ≤ 23 ∧ om ≤ 59 ∧ os ≤ 59 then
                some (some ((if c = '-' then -1 else 1) * (3600 * oh + 60 * om + os)))
              else none
            | none => none
          else none
        | _ => none
      | _, _ => none
    else none
  | _ => none

/-- Time-of-day part `HH:MM:SS[.ffffff][offset]` of an ISO-8601 string
(model of the time half of `datetime.fromisoformat`). -/
def parseTime (y mo d : ℕ) (cs : List Char) : Option PyDateTime :=
  match cs with
  | h1 :: h2 :: c1 :: m1 :: m2 :: c2 :: s1 :: s2 :: rest =>
    if c1 = ':' ∧ c2 = ':' then
      match digit2 h1 h2, digit2 m1 m2, digit2 s1 s2 with
      | some h, some mi, some s =>
        if h ≤ 23 ∧ mi ≤ 59 ∧ s ≤ 59 then
          match rest with
          | [] => some ⟨y, mo, d, h, mi, s, 0, none⟩
          | c :: fr =>
            if c = '.' then
              match parseFrac fr with
              | some p =>
                match parseOffset p.2 with
                | some off => some ⟨y, mo, d, h, mi, s, p.1, off⟩
                | none => none
              | none => none
            else
              match parseOffset (c :: fr) with
              | some off => some ⟨y, mo, d, h, mi, s, 0, off⟩
              | none => none
        else none
      | _, _, _ => none
    else none
  | _ => none

/-- Model of `datetime.fromisoformat` on the extended ISO-8601 grammar:
`YYYY-MM-DD` optionally followed by a separator and a time part.
Returns `none` where CPython raises `ValueError`. -/
def parseIso (cs : List Char) : Option PyDateTime :=
  match cs with
  | y1 :: y2 :: y3 :: y4 :: '-' :: o1 :: o2 :: '-' :: a1 :: a2 :: rest =>
    match digit4 y1 y2 y3 y4, digit2 o1 o2, digit2 a1 a2 with
    | some y, some mo, some d =>
      if 1 ≤ y ∧ y ≤ 9999 ∧ 1 ≤ mo ∧ mo ≤ 12 ∧ 1 ≤ d ∧ d ≤ daysInMonth y mo then
        match rest with
        | [] => some ⟨y, mo, d, 0, 0, 0, 0, none⟩
        | sep :: tr => if sep = 'T' ∨ sep = ' ' then parseTime y mo d tr else none
      else none
    | _, _, _ => none
  | _ => none

/-- Next calendar day. -/
def nextDay : ℕ × ℕ × ℕ → ℕ × ℕ × ℕ
  | (y, m, d) =>
    if d < daysInMonth y m then (y, m, d + 1)
    else if m < 12 then (y, m + 1, 1)
    else (y + 1, 1, 1)

/-- Previous calendar day. -/
def prevDay : ℕ × ℕ × ℕ → ℕ × ℕ × ℕ
  | (y, m, d) =>
    if 1 < d then (y, m, d - 1)
    else if 1 < m then (y, m - 1, daysInMonth y (m - 1))
    else (y - 1, 12, 31)

/-- Shift a calendar date by a signed number of days. -/
def shiftDays (p : ℕ × ℕ × ℕ) : ℤ → ℕ × ℕ × ℕ
  | Int.ofNat n => nextDay^[n] p
  | Int.negSucc n => prevDay^[n + 1] p

/-- Model of `dt.astimezone(timezone.utc)` preceded by the naive-datetime
branch of `normalize_ts`: a naive datetime is stamped UTC with unchanged
fields (`replace(tzinfo=utc)`); an aware one is converted to UTC by
shifting the wall clock by its offset.  Returns `none` where CPython
would raise `OverflowError` (result year outside 1..9999). -/
def astimezoneUTC (dt : PyDateTime) : Option PyDateTime :=
  match dt.utcoffset with
  | none => some { dt with utcoffset := some 0 }
  | some off =>
    let tod : ℤ := 3600 * (dt.hour : ℤ) + 60 * (dt.minute : ℤ) + (dt.second : ℤ)
    let total : ℤ := tod - off
    let tod2 : ℤ := total % 86400
    let p := shiftDays (dt.year, dt.month, dt.day) (total / 86400)
    if 1 ≤ p.1 ∧ p.1 ≤ 9999 then
      some { year := p.1, month := p.2.1, day := p.2.2,
             hour := (tod2 / 3600).toNat,
             minute := (tod2 % 3600 / 60).toNat,
             second := (tod2 % 60).toNat,
             microsecond := dt.microsecond,
             utcoffset := some 0 }
    else none

/-- Two-digit zero-padded decimal rendering. -/
def pad2 (n : ℕ) : List Char :=
  [Nat.digitChar (n / 10 % 10), Nat.digitChar (n % 10)]

/-- Four-digit zero-padded decimal rendering. -/
def pad4 (n : ℕ) : List Char :=
  [Nat.digitChar (n / 1000 % 10), Nat.digitChar (n / 100 % 10),
   Nat.digitChar (n / 10 % 10), Nat.digitChar (n % 10)]

/-- Six-digit zero-padded decimal rendering (microseconds). -/
def pad6 (n : ℕ) : List Char :=
  [Nat.digitChar (n / 100000 % 10), Nat.digitChar (n / 10000 % 10),
   Nat.digitChar (n / 1000 % 10), Nat.digitChar (n / 100 % 10),
   Nat.digitChar (n / 10 % 10), Nat.digitChar (n % 10)]

/-- UTC-offset rendering of `datetime.isoformat`: sign, hours, minutes,
and seconds only when nonzero. -/
def offsetChars (off : ℤ) : List Char :=
  let a := off.natAbs
  (if off < 0 then '-' else '+') ::
    (pad2 (a / 3600) ++ ':' :: pad2 (a % 3600 / 60) ++
      (if a % 60 = 0 then [] else ':' :: pad2 (a % 60)))

/-- Model of `datetime.isoformat()`: `YYYY-MM-DDTHH:MM:SS`, fractional
part only when the microsecond field is nonzero, offset only when the
datetime is aware. -/
def formatIso (dt : PyDateTime) : List Char :=
  pad4 dt.year ++ '-' :: pad2 dt.month ++ '-' :: pad2 dt.day ++
    'T' :: pad2 dt.hour ++ ':' :: pad2 dt.minute ++ ':' :: pad2 dt.second ++
    (if dt.microsecond = 0 then [] else '.' :: pad6 dt.microsecond) ++
    (match dt.utcoffset with
     | none => []
     | some off => offsetChars off)

/-- Model of `normalize_ts` (cpu_energy_attribution.py, lines 6-21):
parse ISO-8601, assume UTC when naive, convert to UTC when aware,
truncate to whole seconds, re-serialize.  `none` models a raised
exception. -/
def normalize_ts (s : String) : Option String :=
  (parseIso s.data).bind fun dt =>
    (astimezoneUTC dt).map fun dtu =>
      String.mk (formatIso { dtu with microsecond := 0 })

/-- Days between a Gregorian date and 1970-01-01 (used to model
`datetime.timestamp()`). -/
def rataDie (y m d : ℕ) : ℤ :=
  let y2 : ℤ := if m ≤ 2 then (y : ℤ) - 1 else (y : ℤ)
  let m2 : ℤ := if m ≤ 2 then (m : ℤ) + 9 else (m : ℤ) - 3
  let era : ℤ := y2 / 400
  let yoe : ℤ := y2 - era * 400
  let doy : ℤ := (153 * m2 + 2) / 5 + (d : ℤ) - 1
  let doe : ℤ := yoe * 365 + yoe / 4 - yoe / 100 + doy
  era * 146097 + doe - 719468

/-- Model of `ts_to_epoch` (cpu_energy_attribution.py, lines 24-28):
parse, assume UTC when naive, and return the POSIX timestamp in seconds
as an exact rational.  `none` models a raised exception. -/
def ts_to_epoch (s : String) : Option ℚ :=
  (parseIso s.data).map fun dt =>
    let off : ℤ := dt.utcoffset.getD 0
    (86400 * rataDie dt.year dt.month dt.day +
       3600 * (dt.hour : ℤ) + 60 * (dt.minute : ℤ) + (dt.second : ℤ) - off : ℤ) +
      (dt.microsecond : ℚ) / 1000000

/-- Raw Shelly power sample: a JSON record whose fields may be absent
(`"ts" not in s` etc. in the Python source). -/
structure ShellySample where
  ts : Option String
  power_w : Option ℚ
  voltage_V : Option ℚ
deriving DecidableEq, Repr

/-- The `"shelly"` value stored in the timeline. -/
structure ShellyReading where
  power_w : ℚ
  voltage_V : Option ℚ
deriving DecidableEq, Repr

/-- Raw cAdvisor CPU sample; fields may be absent. -/
structure CpuSample where
  ts : Option String
  cpu_cores_used : Option ℚ
  cpu_percent_host : Option ℚ
deriving DecidableEq, Repr

/-- Per-service record stored under `"services"`; the
`estimated_power_from_shelly_watt` key is absent (`none`) until
attribution adds it. -/
structure SvcRecord where
  cpu_cores_used : ℚ
  cpu_percent_host : ℚ
  estimated_power_from_shelly_watt : Option ℚ
deriving DecidableEq, Repr

/-- One timeline value: the `"shelly"` and `"services"` keys, each
possibly absent. -/
structure TimelineEntry where
  shelly : Option ShellyReading
  services : Option (List (String × SvcRecord))
deriving DecidableEq, Repr

/-- Configuration of `ShellyPowerAttributor.__init__` (defaults 4 cores,
5.0 s skew, 0.01 cores epsilon). -/
structure ShellyPowerAttributor where
  host_cpu_cores : ℕ
  max_time_skew_s : ℚ
  cpu_epsilon_cores : ℚ
deriving DecidableEq, Repr

/-- Python dicts are insertion-ordered maps; we model them as
association lists with unique keys, updates in place, inserts at the
end. -/
abbrev Timeline := List (String × TimelineEntry)

/-- Lookup in an insertion-ordered dict. -/
def alookup {β : Type} (k : String) : List (String × β) → Option β
  | [] => none
  | p :: rest => if p.1 = k then some p.2 else alookup k rest

/-- Model of `d.setdefault(k, dflt)` followed by mutating the value with
`f`: existing keys keep their position, new keys are appended. -/
def updateAList {β : Type} (k : String) (dflt : β) (f : β → β) : List (String × β) → List (String × β)
  | [] => [(k, f dflt)]
  | p :: rest => if p.1 = k then (p.1, f p.2) :: rest else p :: updateAList k dflt f rest

/-- Model of `d[k] = v`: overwrite in place or append. -/
def setAList {β : Type} (k : String) (v : β) : List (String × β) → List (String × β)
  | [] => [(k, v)]
  | p :: rest => if p.1 = k then (p.1, v) :: rest else p :: setAList k v rest

/-- Shelly loop of `build_timeline` (lines 95-103): skip samples missing
`ts` or `power_w`, normalize the timestamp, last write wins.  `none`
models the uncaught exception of `normalize_ts` on a malformed
timestamp. -/
def addShelly (tl : Timeline) : List ShellySample → Option Timeline
  | [] => some tl
  | s :: rest =>
    match s.ts, s.power_w with
    | some ts0, some p =>
      (normalize_ts ts0).bind fun ts =>
        addShelly (updateAList ts ⟨none, none⟩
          (fun e => { e with shelly := some ⟨p, s.voltage_V⟩ }) tl) rest
    | _, _ => addShelly tl rest

/-- Service record built by the cAdvisor loop: `cpu_percent_host`
defaults to `cpu_cores_used / host_cpu_cores * 100`. -/
def mkSvcRecord (attr : ShellyPowerAttributor) (cores : ℚ) (pct : Option ℚ) : SvcRecord :=
  ⟨cores, pct.getD (cores / (attr.host_cpu_cores : ℚ) * 100), none⟩

/-- Inner cAdvisor loop of `build_timeline` (lines 107-122) for one
service: skip samples missing `ts` or `cpu_cores_used`. -/
def addCpuSamples (attr : ShellyPowerAttributor) (service : String) (tl : Timeline) :
    List CpuSample → Option Timeline
  | [] => some tl
  | s :: rest =>
    match s.ts, s.cpu_cores_used with
    | some ts0, some cores =>
      (normalize_ts ts0).bind fun ts =>
        let rec2 := mkSvcRecord attr cores s.cpu_percent_host
        addCpuSamples attr service (updateAList ts ⟨none, none⟩
          (fun e => { e with services := some (setAList service rec2 (e.services.getD [])) }) tl) rest
    | _, _ => addCpuSamples attr service tl rest

/-- Outer cAdvisor loop over `cadvisor_by_service.items()`. -/
def addCpu (attr : ShellyPowerAttributor) (tl : Timeline) :
    List (String × List CpuSample) → Option Timeline
  | [] => some tl
  | p :: rest => (addCpuSamples attr p.1 tl p.2).bind fun tl2 => addCpu attr tl2 rest

/-- Model of `ShellyPowerAttributor.build_timeline` (lines 75-123). -/
def build_timeline (attr : ShellyPowerAttributor) (shelly_samples : List ShellySample)
    (cadvisor_by_service : List (String × List CpuSample)) : Option Timeline :=
  (addShelly [] shelly_samples).bind fun tl => addCpu attr tl cadvisor_by_service

/-- The `shelly_only` comprehension of `align_timeline`. -/
def shelly_only (tl : Timeline) : List (String × ShellyReading) :=
  tl.filterMap fun p => p.2.shelly.map fun sh => (p.1, sh)

/-- The `service_only` comprehension of `align_timeline`. -/
def service_only (tl : Timeline) : List (String × List (String × SvcRecord)) :=
  tl.filterMap fun p => p.2.services.map fun sv => (p.1, sv)

/-- Scan loop of `nearest_by_time` (lines 40-45): keep the first
candidate realising the strictly smallest delta seen so far (the update
condition is `best_delta is None or delta < best_delta`). -/
def nearest_aux (target : ℚ) :
    List (String × ShellyReading) → Option ShellyReading → Option ℚ →
      Option (Option ShellyReading × Option ℚ)
  | [], best, bestD => some (best, bestD)
  | p :: rest, _, none =>
    (ts_to_epoch p.1).bind fun e => nearest_aux target rest (some p.2) (some |e - target|)
  | p :: rest, best, some bd =>
    (ts_to_epoch p.1).bind fun e =>
      if |e - target| < bd then nearest_aux target rest (some p.2) (some |e - target|)
      else nearest_aux target rest best (some bd)

/-- Final test of `nearest_by_time` (lines 47-50): return the best
candidate only when a delta was recorded and lies within the skew. -/
def nearest_threshold (max_skew_s : ℚ) :
    Option ShellyReading × Option ℚ → Option ShellyReading
  | (best, some bd) => if bd ≤ max_skew_s then best else none
  | (_, none) => none

/-- Model of `nearest_by_time` (lines 31-51): global minimum over all
candidates, returned only when within `max_skew_s`.  The outer `Option`
models a raised exception from `ts_to_epoch`. -/
def nearest_by_time (candidates : List (String × ShellyReading))
    (target_epoch : ℚ) (max_skew_s : ℚ) : Option (Option ShellyReading) :=
  (nearest_aux target_epoch candidates none none).map (nearest_threshold max_skew_s)

/-- One aligned instant: `{"shelly": ..., "services": ...}` with both
keys present. -/
structure AlignedEntry where
  shelly : ShellyReading
  services : List (String × SvcRecord)
deriving DecidableEq, Repr

/-- Loop of `align_timeline` over `service_only` (lines 146-160). -/
def align_go (sh : List (String × ShellyReading)) (maxS : ℚ) :
    List (String × List (String × SvcRecord)) → Option (List (String × AlignedEntry))
  | [] => some []
  | p :: rest =>
    (ts_to_epoch p.1).bind fun e =>
      (nearest_by_time sh e maxS).bind fun m =>
        (align_go sh maxS rest).map fun tail =>
          match m with
          | none => tail
          | some shm => (p.1, ⟨shm, p.2⟩) :: tail

/-- Model of `ShellyPowerAttributor.align_timeline` (lines 126-162). -/
def align_timeline (attr : ShellyPowerAttributor) (tl : Timeline) :
    Option (List (String × AlignedEntry)) :=
  align_go (shelly_only tl) attr.max_time_skew_s (service_only tl)

/-- Sum of `cpu_cores_used` over an instant's services (the `cpu_total`
of `attribute`). -/
def svcCpuTotal (svcs : List (String × SvcRecord)) : ℚ :=
  (svcs.map fun p => p.2.cpu_cores_used).sum

/-- Body of the `attribute` loop (lines 170-185) for one instant.
`none` models the `ZeroDivisionError` Python raises when the epsilon
guard is passed with a zero CPU total and at least one service. -/
def attributeEntry (attr : ShellyPowerAttributor) (e : AlignedEntry) : Option AlignedEntry :=
  let cpu_total := svcCpuTotal e.services
  if cpu_total < attr.cpu_epsilon_cores then
    some { e with services := e.services.map (fun p =>
      (p.1, { p.2 with estimated_power_from_shelly_watt := some 0 })) }
  else if cpu_total = 0 ∧ e.services ≠ [] then none
  else
    some { e with services := e.services.map (fun p =>
      let est := p.2.cpu_cores_used / cpu_total * e.shelly.power_w
      (p.1, { p.2 with estimated_power_from_shelly_watt := some est })) }

/-- Model of `ShellyPowerAttributor.attribute` (lines 165-187); named
`attributeTimeline` because `attribute` is reserved in Lean. -/
def attributeTimeline (attr : ShellyPowerAttributor) :
    List (String × AlignedEntry) → Option (List (String × AlignedEntry))
  | [] => some []
  | p :: rest =>
    (attributeEntry attr p.2).bind fun e2 =>
      (attributeTimeline attr rest).map fun r => (p.1, e2) :: r

/-- One element of a per-service series: `{"ts": ts, **s}`. -/
structure ExportRecord where
  ts : String
  cpu_cores_used : ℚ
  cpu_percent_host : ℚ
  estimated_power_from_shelly_watt : Option ℚ
deriving DecidableEq, Repr

/-- The `{"ts": ts, **s}` record of `export_per_service`. -/
def exportRecordOf (ts : String) (s : SvcRecord) : ExportRecord :=
  ⟨ts, s.cpu_cores_used, s.cpu_percent_host, s.estimated_power_from_shelly_watt⟩

/-- Model of `ShellyPowerAttributor.export_per_service` (lines 190-207):
`out.setdefault(service, []).append(record)` over the timeline in
order. -/
def export_per_service (attributed_timeline : List (String × AlignedEntry)) :
    List (String × List ExportRecord) :=
  attributed_timeline.foldl
    (fun out p => p.2.services.foldl
      (fun o q => updateAList q.1 [] (fun l => l ++ [exportRecordOf p.1 q.2]) o) out)
    []

/-- Model of `_first_non_empty` (prometheus_export.py, lines 5-10) with
`prom.range` abstracted as a fallible query evaluator: in the typed
model `isinstance(data, list)` is always true.  An error raised by a
candidate propagates (there is no handler in the source). -/
def first_non_empty {Q E R : Type} (range : Q → Except E (List R)) :
    List Q → Except E (List R)
  | [] => .ok []
  | q :: qs =>
    match range q with
    | .error e => .error e
    | .ok data => if 0 < data.length then .ok data else first_non_empty range qs

/-- Resolver as worded by the spec: first non-empty series in candidate
order, empty series when all candidates are empty. -/
def firstNonEmptySpec {R : Type} : List (List R) → List R
  | [] => []
  | l :: ls => if l.length = 0 then firstNonEmptySpec ls else l

/-- State of a `ShellyAdapter` instance (shelly_adapter.py): the thread
handle is abstracted to an opaque id. -/
structure ShellyAdapterState where
  base_url : String
  timeout : ℚ
  switch_id : ℤ
  auth : Option (String × String)
  thr : Option ℕ
  run : Bool
  out_path : Option String
  hz : ℚ
deriving DecidableEq, Repr

/-- Model of `ShellyAdapter.stop` (lines 109-117): early return when the
run flag is down; otherwise clear the flag, join the thread (external
effect) and drop the handle. -/
def stop (s : ShellyAdapterState) : ShellyAdapterState :=
  if s.run = false then s
  else
    match s.thr with
    | some _ => { s with run := false, thr := none }
    | none => { s with run := false }

/-! ### Helper lemmas -/

lemma alookup_updateAList {β : Type} (k k2 : String) (dflt : β) (f : β → β) (l : List (String × β)) :
    alookup k (updateAList k2 dflt f l) =
      if k2 = k then some (f ((alookup k2 l).getD dflt)) else alookup k l := by
  induction l with
  | nil =>
    by_cases h : k2 = k <;> simp [updateAList, alookup, h]
  | cons p rest ih =>
    by_cases h1 : p.1 = k2
    · by_cases h2 : k2 = k <;> simp [updateAList, alookup, h1, h2]
    · by_cases h2 : k2 = k
      · subst h2
        simp [updateAList, alookup, h1, ih]
      · by_cases h3 : p.1 = k
        · have h2b : ¬ k = k2 := fun hh => h2 hh.symm
          simp [updateAList, alookup, h1, h2, h2b, h3]
        · simp [updateAList, alookup, h1, h2, h3, ih]

lemma mem_updateAList {β : Type} (k : String) (dflt : β) (f : β → β) (l : List (String × β)) :
    ∀ q ∈ updateAList k dflt f l, q ∈ l ∨ q = (k, f ((alookup k l).getD dflt)) := by
  induction l with
  | nil => simp [updateAList, alookup]
  | cons p rest ih =>
    intro q hq
    by_cases h1 : p.1 = k
    · rw [updateAList, if_pos h1] at hq
      rcases List.mem_cons.mp hq with hq2 | hq2
      · right
        rw [hq2]
        simp [alookup, h1]
      · left
        exact List.mem_cons_of_mem p hq2
    · rw [updateAList, if_neg h1] at hq
      rcases List.mem_cons.mp hq with hq2 | hq2
      · left
        rw [hq2]
        exact List.mem_cons_self p rest
      · rcases ih q hq2 with h | h
        · left
          exact List.mem_cons_of_mem p h
        · right
          rw [h, alookup, if_neg h1]

/-! ### C9: idempotent stop -/

/-- C9: calling `ShellyAdapter.stop` with the run flag down returns the
state unchanged (every field), hence a second consecutive `stop` is a
no-op: the sampler is stopped exactly once. -/
theorem claim_C9 (s : ShellyAdapterState) :
    (s.run = false → stop s = s) ∧ stop (stop s) = stop s := by
  constructor
  · intro h
    simp [stop, h]
  · by_cases h : s.run = false
    · simp [stop, h]
    · cases hthr : s.thr <;> simp [stop, h, hthr]

/-- Witness for C9 at a concrete adapter state. -/
theorem claim_C9_witness :
    ((⟨"http://shelly", 3, 0, none, some 7, true, some "out.jsonl", 1⟩ : ShellyAdapterState).run = false →
      stop ⟨"http://shelly", 3, 0, none, some 7, true, some "out.jsonl", 1⟩ =
        ⟨"http://shelly", 3, 0, none, some 7, true, some "out.jsonl", 1⟩) ∧
    stop (stop ⟨"http://shelly", 3, 0, none, some 7, true, some "out.jsonl", 1⟩) =
      stop ⟨"http://shelly", 3, 0, none, some 7, true, some "out.jsonl", 1⟩ :=
  claim_C9 ⟨"http://shelly", 3, 0, none, some 7, true, some "out.jsonl", 1⟩

/-! ### C8: resolver returns first non-empty candidate -/

/-- C8: when no candidate raises, `_first_non_empty` returns the result
of the first candidate (in list order) with a non-empty series, skipping
earlier empty candidates, and the empty series when all candidates are
empty — matching the resolver as worded by the spec. -/
theorem claim_C8 {Q E R : Type} (range : Q → Except E (List R)) (qs : List Q)
    (h : ∀ q ∈ qs, ∃ l, range q = Except.ok l) :
    first_non_empty range qs =
      Except.ok (firstNonEmptySpec (qs.map fun q => ((range q).toOption.getD []))) := by
  induction qs with
  | nil => rfl
  | cons q qs ih =>
    obtain ⟨l, hl⟩ := h q (List.mem_cons_self q qs)
    have ih2 := ih fun q2 hq2 => h q2 (List.mem_cons_of_mem q hq2)
    by_cases hlen : 0 < l.length
    · have hne : ¬ l.length = 0 := by omega
      simp [first_non_empty, firstNonEmptySpec, hl, hlen, hne, Except.toOption]
    · have he : l.length = 0 := by omega
      simp [first_non_empty, firstNonEmptySpec, hl, hlen, he, Except.toOption, ih2]

/-- Concrete candidate evaluator for the resolver witnesses: candidate 1
is empty, candidate 2 is non-empty, candidate 3 is never reached. -/
def witRange : ℕ → Except String (List ℕ) :=
  fun q => if q = 2 then Except.ok [42] else Except.ok []

/-- Witness for C8: among an empty and a non-empty candidate the
resolver returns the non-empty one. -/
theorem claim_C8_witness :
    (∀ q ∈ [1, 2, 3], ∃ l, witRange q = Except.ok l) ∧
    first_non_empty witRange [1, 2, 3] =
      Except.ok (firstNonEmptySpec ([1, 2, 3].map fun q => ((witRange q).toOption.getD []))) :=
  ⟨fun q _ => ⟨if q = 2 then [42] else [], by by_cases h : q = 2 <;> simp [witRange, h]⟩,
   claim_C8 witRange [1, 2, 3]
     (fun q _ => ⟨if q = 2 then [42] else [], by by_cases h : q = 2 <;> simp [witRange, h]⟩)⟩

/-! ### C3: corrected — a raising candidate aborts resolution -/

/-- Concrete candidate evaluator refuting C3: the first candidate
raises, the second would return a non-empty series. -/
def cexRange : ℕ → Except String (List ℕ) :=
  fun q => if q = 1 then Except.error "boom" else Except.ok [42]

/-- Counterexample to C3 as stated: with candidates `[1, 2]` where
candidate 1 raises and candidate 2 yields a non-empty series,
`_first_non_empty` propagates the error to the caller instead of
recording it and continuing to candidate 2. -/
theorem claim_C3_cex :
    first_non_empty cexRange [1, 2] = Except.error "boom" ∧
    first_non_empty cexRange [2] = Except.ok [42] := by
  constructor <;> rfl

/-- C3 (amended): a raising candidate aborts resolution — after any
prefix of candidates returning empty series, the first candidate that
raises propagates its error to the caller; later candidates are not
consulted. -/
theorem claim_C3 {Q E R : Type} (range : Q → Except E (List R))
    (qs1 : List Q) (q : Q) (qs2 : List Q) (e : E)
    (h1 : ∀ p ∈ qs1, range p = Except.ok ([] : List R))
    (h2 : range q = Except.error e) :
    first_non_empty range (qs1 ++ q :: qs2) = Except.error e := by
  induction qs1 with
  | nil => simp [first_non_empty, h2]
  | cons p ps ih =>
    have hp := h1 p (List.mem_cons_self p ps)
    have ih2 := ih fun p2 hp2 => h1 p2 (List.mem_cons_of_mem p hp2)
    simp [first_non_empty, hp, ih2]

/-- Witness for the amended C3 on concrete candidates. -/
theorem claim_C3_witness :
    (∀ p ∈ ([] : List ℕ), cexRange p = Except.ok ([] : List ℕ)) ∧
    cexRange 1 = Except.error "boom" ∧
    first_non_empty cexRange ([] ++ 1 :: [2]) = Except.error "boom" :=
  ⟨fun p hp => absurd hp (List.not_mem_nil p), rfl,
   claim_C3 cexRange [] 1 [2] "boom" (fun p hp => absurd hp (List.not_mem_nil p)) rfl⟩

/-! ### C4: corrected — malformed timestamps abort build_timeline -/

/-- The constructor defaults of `ShellyPowerAttributor`. -/
def defaultAttributor : ShellyPowerAttributor := ⟨4, 5, 1 / 100⟩

/-- Counterexample to C4 as stated: a power sample — and likewise a CPU
sample — whose `ts` string is unparseable makes `build_timeline` raise
(result `none`, modelling the uncaught `ValueError`) instead of
dropping the sample. -/
theorem claim_C4_cex :
    build_timeline defaultAttributor [⟨some "garbage", some 1, none⟩] [] = none ∧
    build_timeline defaultAttributor [] [("a", [⟨some "garbage", some 1, none⟩])] = none ∧
    normalize_ts "garbage" = none := by
  refine ⟨rfl, rfl, rfl⟩

/-- C4 (amended): a power or CPU sample missing `ts` or its primary
metric is dropped and the remaining samples are still processed, but a
power or CPU sample whose present `ts` string cannot be parsed raises
an error that aborts `build_timeline` (the exception from
`normalize_ts` is caught in neither the shelly loop nor the cAdvisor
loop). -/
theorem claim_C4 (attr : ShellyPowerAttributor) (service : String) (tl : Timeline)
    (s : ShellySample) (c : CpuSample) (rest : List ShellySample) (crest : List CpuSample) :
    ((s.ts = none ∨ s.power_w = none) → addShelly tl (s :: rest) = addShelly tl rest) ∧
    ((c.ts = none ∨ c.cpu_cores_used = none) →
      addCpuSamples attr service tl (c :: crest) = addCpuSamples attr service tl crest) ∧
    (∀ ts0 p, s.ts = some ts0 → s.power_w = some p → normalize_ts ts0 = none →
      addShelly tl (s :: rest) = none) ∧
    (∀ ts0 cc, c.ts = some ts0 → c.cpu_cores_used = some cc → normalize_ts ts0 = none →
      addCpuSamples attr service tl (c :: crest) = none) := by
  refine ⟨?_, ?_, ?_, ?_⟩
  · rintro (h | h) <;> cases hts : s.ts <;> cases hpw : s.power_w <;>
      simp_all [addShelly]
  · rintro (h | h) <;> cases hts : c.ts <;> cases hcc : c.cpu_cores_used <;>
      simp_all [addCpuSamples]
  · intro ts0 p hts hpw hn
    simp [addShelly, hts, hpw, hn]
  · intro ts0 cc hts hcc hn
    simp [addCpuSamples, hts, hcc, hn]

/-- Witness for the amended C4 on concrete samples: each of the four
conjuncts exercised non-vacuously (a missing-`ts` power and CPU sample
are dropped; a `"garbage"`-timestamped power and CPU sample abort). -/
theorem claim_C4_witness :
    addShelly [] [⟨none, some 1, none⟩] = addShelly [] [] ∧
    addCpuSamples defaultAttributor "a" [] [⟨none, some 1, none⟩] =
      addCpuSamples defaultAttributor "a" [] [] ∧
    addShelly [] [⟨some "garbage", some 1, none⟩] = none ∧
    addCpuSamples defaultAttributor "a" [] [⟨some "garbage", some 1, none⟩] = none :=
  ⟨(claim_C4 defaultAttributor "a" [] ⟨none, some 1, none⟩ ⟨none, some 1, none⟩ [] []).1
      (Or.inl rfl),
   (claim_C4 defaultAttributor "a" [] ⟨none, some 1, none⟩ ⟨none, some 1, none⟩ [] []).2.1
      (Or.inl rfl),
   (claim_C4 defaultAttributor "a" [] ⟨some "garbage", some 1, none⟩ ⟨none, some 1, none⟩
      [] []).2.2.1 "garbage" 1 rfl rfl (by rfl),
   (claim_C4 defaultAttributor "a" [] ⟨none, some 1, none⟩ ⟨some "garbage", some 1, none⟩
      [] []).2.2.2 "garbage" 1 rfl rfl (by rfl)⟩

/-! ### C1 and C10: attribution conservation and frame -/

/-- Sum of `estimated_power_from_shelly_watt` over an instant's
services, an absent key counting as 0. -/
def svcEstSum (svcs : List (String × SvcRecord)) : ℚ :=
  (svcs.map fun p => (p.2.estimated_power_from_shelly_watt).getD 0).sum

lemma svcCpuTotal_map_est (svcs : List (String × SvcRecord)) (g : String × SvcRecord → Option ℚ) :
    svcCpuTotal (svcs.map fun p => (p.1, { p.2 with estimated_power_from_shelly_watt := g p })) =
      svcCpuTotal svcs := by
  simp only [svcCpuTotal, List.map_map]
  congr 1

lemma svcEstSum_map (svcs : List (String × SvcRecord)) (g : String × SvcRecord → ℚ) :
    svcEstSum (svcs.map fun p => (p.1, { p.2 with estimated_power_from_shelly_watt := some (g p) })) =
      (svcs.map g).sum := by
  simp only [svcEstSum, List.map_map]
  congr 1

lemma sum_map_div_mul (svcs : List (String × SvcRecord)) (T P : ℚ) :
    (svcs.map fun p => p.2.cpu_cores_used / T * P).sum =
      (svcs.map fun p => p.2.cpu_cores_used).sum / T * P := by
  induction svcs with
  | nil => simp
  | cons p rest ih =>
    simp only [List.map_cons, List.sum_cons, ih]
    ring

lemma attributeEntry_spec (attr : ShellyPowerAttributor) (heps : 0 < attr.cpu_epsilon_cores)
    (e0 e : AlignedEntry) (h : attributeEntry attr e0 = some e) :
    (attr.cpu_epsilon_cores ≤ svcCpuTotal e.services → svcEstSum e.services = e.shelly.power_w) ∧
    (svcCpuTotal e.services < attr.cpu_epsilon_cores →
      ∀ p ∈ e.services, p.2.estimated_power_from_shelly_watt = some 0) := by
  simp only [attributeEntry] at h
  split at h
  · rename_i hlt
    rcases Option.some.inj h with rfl
    rw [svcCpuTotal_map_est] at *
    constructor
    · intro hle
      exact absurd hlt (not_lt.mpr hle)
    · intro _ p hp
      rcases List.mem_map.mp hp with ⟨q, _, rfl⟩
      rfl
  · split at h
    · exact absurd h (by simp)
    · rename_i hnlt hnz
      rcases Option.some.inj h with rfl
      rw [svcCpuTotal_map_est] at *
      refine ⟨?_, fun hlt => absurd hlt hnlt⟩
      intro hle
      have hT : svcCpuTotal e0.services ≠ 0 := by
        intro h0
        exact absurd (lt_of_le_of_lt hle (h0 ▸ heps)).false (by simp)
      show svcEstSum _ = e0.shelly.power_w
      rw [svcEstSum_map, sum_map_div_mul]
      show svcCpuTotal e0.services / svcCpuTotal e0.services * e0.shelly.power_w = _
      rw [div_self hT, one_mul]

lemma attributeTimeline_mem (attr : ShellyPowerAttributor) :
    ∀ (al out : List (String × AlignedEntry)), attributeTimeline attr al = some out →
      ∀ q ∈ out, ∃ e0, attributeEntry attr e0 = some q.2 := by
  intro al
  induction al with
  | nil =>
    intro out h q hq
    simp only [attributeTimeline, Option.some.injEq] at h
    subst h
    exact absurd hq (List.not_mem_nil q)
  | cons p rest ih =>
    intro out h q hq
    simp only [attributeTimeline] at h
    cases he : attributeEntry attr p.2 with
    | none => rw [he] at h; exact absurd h (by simp)
    | some e2 =>
      rw [he] at h
      cases hr : attributeTimeline attr rest with
      | none => rw [hr] at h; exact absurd h (by simp)
      | some r2 =>
        rw [hr] at h
        simp at h
        subst h
        rcases List.mem_cons.mp hq with h1 | h1
        · exact ⟨p.2, by rw [he, h1]⟩
        · exact ih r2 hr q h1

/-- C1: after `attribute`, at each instant of the result, if the CPU
total is at least `cpu_epsilon_cores` the per-service estimates sum
exactly (in `ℚ`) to the instant's `power_w`; if the CPU total is below
the epsilon every estimate is 0.  The hypothesis `0 <
cpu_epsilon_cores` reflects the positive constructor default (0.01). -/
theorem claim_C1 (attr : ShellyPowerAttributor) (al out : List (String × AlignedEntry))
    (heps : 0 < attr.cpu_epsilon_cores) (hrun : attributeTimeline attr al = some out)
    (ts : String) (e : AlignedEntry) (he : (ts, e) ∈ out) :
    (attr.cpu_epsilon_cores ≤ svcCpuTotal e.services → svcEstSum e.services = e.shelly.power_w) ∧
    (svcCpuTotal e.services < attr.cpu_epsilon_cores →
      ∀ p ∈ e.services, p.2.estimated_power_from_shelly_watt = some 0) := by
  obtain ⟨e0, he0⟩ := attributeTimeline_mem attr al out hrun (ts, e) he
  exact attributeEntry_spec attr heps e0 e he0

/-- Concrete aligned timeline exercising C1: one instant at 10 W with
two services using 1 and 3 cores. -/
def c1al : List (String × AlignedEntry) :=
  [("2024-01-01T00:00:00+00:00",
    ⟨⟨10, none⟩, [("a", ⟨1, 25, none⟩), ("b", ⟨3, 75, none⟩)]⟩)]

/-- Result of attribution on `c1al`: 10 W split 1:3. -/
def c1out : List (String × AlignedEntry) :=
  [("2024-01-01T00:00:00+00:00",
    ⟨⟨10, none⟩, [("a", ⟨1, 25, some (5 / 2)⟩), ("b", ⟨3, 75, some (15 / 2)⟩)]⟩)]

/-- The attributed instant of `c1out`. -/
def c1entry : AlignedEntry :=
  ⟨⟨10, none⟩, [("a", ⟨1, 25, some (5 / 2)⟩), ("b", ⟨3, 75, some (15 / 2)⟩)]⟩

/-- Witness for C1 at the concrete instant of `c1al`. -/
theorem claim_C1_witness :
    (0 < defaultAttributor.cpu_epsilon_cores ∧
      attributeTimeline defaultAttributor c1al = some c1out ∧
      ("2024-01-01T00:00:00+00:00", c1entry) ∈ c1out) ∧
    (defaultAttributor.cpu_epsilon_cores ≤ svcCpuTotal c1entry.services →
      svcEstSum c1entry.services = c1entry.shelly.power_w) ∧
    (svcCpuTotal c1entry.services < defaultAttributor.cpu_epsilon_cores →
      ∀ p ∈ c1entry.services, p.2.estimated_power_from_shelly_watt = some 0) :=
  ⟨⟨by norm_num [defaultAttributor],
    by norm_num [attributeTimeline, attributeEntry, c1al, c1out, defaultAttributor, svcCpuTotal],
    by simp [c1out, c1entry]⟩,
   claim_C1 defaultAttributor c1al c1out (by norm_num [defaultAttributor])
     (by norm_num [attributeTimeline, attributeEntry, c1al, c1out, defaultAttributor, svcCpuTotal])
     "2024-01-01T00:00:00+00:00" c1entry (by simp [c1out, c1entry])⟩

/-- An aligned entry with the `estimated_power_from_shelly_watt` key
removed from every service record. -/
def eraseEstEntry (e : AlignedEntry) : AlignedEntry :=
  { e with services := e.services.map (fun p =>
      (p.1, { p.2 with estimated_power_from_shelly_watt := none })) }

/-- A timeline with all attribution estimates removed. -/
def eraseEst (al : List (String × AlignedEntry)) : List (String × AlignedEntry) :=
  al.map fun p => (p.1, eraseEstEntry p.2)

lemma eraseEstEntry_map (e : AlignedEntry) (g : String × SvcRecord → Option ℚ) :
    eraseEstEntry { e with services := e.services.map (fun p =>
        (p.1, { p.2 with estimated_power_from_shelly_watt := g p })) } =
      eraseEstEntry e := by
  simp [eraseEstEntry, List.map_map, Function.comp]

lemma attributeEntry_frame (attr : ShellyPowerAttributor) (e0 e : AlignedEntry)
    (h : attributeEntry attr e0 = some e) :
    eraseEstEntry e = eraseEstEntry e0 ∧
    ∀ q ∈ e.services, (q.2.estimated_power_from_shelly_watt).isSome = true := by
  simp only [attributeEntry] at h
  split at h
  · rcases Option.some.inj h with rfl
    refine ⟨eraseEstEntry_map e0 _, ?_⟩
    intro q hq
    rcases List.mem_map.mp hq with ⟨p, _, rfl⟩
    rfl
  · split at h
    · exact absurd h (by simp)
    · rcases Option.some.inj h with rfl
      refine ⟨eraseEstEntry_map e0 _, ?_⟩
      intro q hq
      rcases List.mem_map.mp hq with ⟨p, _, rfl⟩
      rfl

/-- C10: `attribute` only adds the `estimated_power_from_shelly_watt`
key: erasing that key from the result gives back the input unchanged
(same instants in the same order, same power readings, same services
with the same CPU fields), and in the result every service record
carries the key. -/
theorem claim_C10 (attr : ShellyPowerAttributor) (al out : List (String × AlignedEntry))
    (h : attributeTimeline attr al = some out) :
    eraseEst out = eraseEst al ∧
    ∀ q ∈ out, ∀ p ∈ q.2.services, (p.2.estimated_power_from_shelly_watt).isSome = true := by
  induction al generalizing out with
  | nil =>
    simp only [attributeTimeline, Option.some.injEq] at h
    subst h
    exact ⟨rfl, fun q hq => absurd hq (List.not_mem_nil q)⟩
  | cons p rest ih =>
    simp only [attributeTimeline] at h
    cases he : attributeEntry attr p.2 with
    | none => rw [he] at h; exact absurd h (by simp)
    | some e2 =>
      rw [he] at h
      cases hr : attributeTimeline attr rest with
      | none => rw [hr] at h; exact absurd h (by simp)
      | some r2 =>
        rw [hr] at h
        simp at h
        subst h
        obtain ⟨hf, hs⟩ := attributeEntry_frame attr p.2 e2 he
        obtain ⟨ihf, ihs⟩ := ih r2 hr
        constructor
        · simp only [eraseEst, List.map_cons, hf] at ihf ⊢
          rw [ihf]
        · intro q hq
          rcases List.mem_cons.mp hq with h1 | h1
          · subst h1
            intro r hr2
            exact hs r hr2
          · exact ihs q h1

/-- Witness for C10 on the concrete aligned timeline `c1al`. -/
theorem claim_C10_witness :
    attributeTimeline defaultAttributor c1al = some c1out ∧
    eraseEst c1out = eraseEst c1al ∧
    ∀ q ∈ c1out, ∀ p ∈ q.2.services, (p.2.estimated_power_from_shelly_watt).isSome = true :=
  ⟨by norm_num [attributeTimeline, attributeEntry, c1al, c1out, defaultAttributor, svcCpuTotal],
   (claim_C10 defaultAttributor c1al c1out
     (by norm_num [attributeTimeline, attributeEntry, c1al, c1out, defaultAttributor, svcCpuTotal])).1,
   (claim_C10 defaultAttributor c1al c1out
     (by norm_num [attributeTimeline, attributeEntry, c1al, c1out, defaultAttributor, svcCpuTotal])).2⟩

/-! ### C7: last-write-wins power entries -/

/-- Left-biased choice (first-some) on options. -/
def oor {β : Type} : Option β → Option β → Option β
  | some x, _ => some x
  | none, b => b

lemma oor_none_right {β : Type} (a : Option β) : oor a none = a := by
  cases a <;> rfl

/-- Reading of the last sample, in input order, that carries both `ts`
and `power_w` and whose timestamp normalizes to `k` (the claim's
specification of the stored power entry). -/
def lastValidShellyAt : List ShellySample → String → Option ShellyReading
  | [], _ => none
  | s :: rest, k =>
    oor (lastValidShellyAt rest k)
      (match s.ts, s.power_w with
       | some t, some p => if normalize_ts t = some k then some ⟨p, s.voltage_V⟩ else none
       | _, _ => none)

lemma addShelly_lookup : ∀ (ss : List ShellySample) (tl tl2 : Timeline),
    addShelly tl ss = some tl2 → ∀ k,
      (alookup k tl2).bind (fun e => e.shelly) =
        oor (lastValidShellyAt ss k) ((alookup k tl).bind (fun e => e.shelly)) := by
  intro ss
  induction ss with
  | nil =>
    intro tl tl2 h k
    simp only [addShelly, Option.some.injEq] at h
    subst h
    simp [lastValidShellyAt, oor]
  | cons s rest ih =>
    intro tl tl2 h k
    rcases hts : s.ts with _ | t
    · simp only [addShelly, hts] at h
      rw [ih tl tl2 h k]
      simp [lastValidShellyAt, hts, oor_none_right]
    · rcases hpw : s.power_w with _ | p
      · simp only [addShelly, hts, hpw] at h
        rw [ih tl tl2 h k]
        simp [lastValidShellyAt, hts, hpw, oor_none_right]
      · simp only [addShelly, hts, hpw] at h
        cases hn : normalize_ts t with
        | none => rw [hn] at h; exact absurd h (by simp)
        | some nts =>
          rw [hn] at h
          simp only [Option.some_bind] at h
          rw [ih _ tl2 h k]
          have hup := alookup_updateAList k nts (⟨none, none⟩ : TimelineEntry)
            (fun e => { e with shelly := some ⟨p, s.voltage_V⟩ }) tl
          by_cases hk : nts = k
          · subst hk
            rw [if_pos rfl] at hup
            simp only [lastValidShellyAt, hts, hpw, hn, hup]
            cases hrest : lastValidShellyAt rest nts <;> simp [oor]
          · rw [if_neg hk] at hup
            have hkk : ¬ (some nts = some k) := by simp [hk]
            simp only [lastValidShellyAt, hts, hpw, hn, hup, hkk, if_neg]
            cases hrest : lastValidShellyAt rest k <;> simp [oor]

lemma addCpuSamples_shelly : ∀ (cs : List CpuSample) (attr : ShellyPowerAttributor)
    (service : String) (tl tl2 : Timeline),
    addCpuSamples attr service tl cs = some tl2 → ∀ k,
      (alookup k tl2).bind (fun e => e.shelly) = (alookup k tl).bind (fun e => e.shelly) := by
  intro cs
  induction cs with
  | nil =>
    intro attr service tl tl2 h k
    simp only [addCpuSamples, Option.some.injEq] at h
    subst h
    rfl
  | cons s rest ih =>
    intro attr service tl tl2 h k
    rcases hts : s.ts with _ | t
    · simp only [addCpuSamples, hts] at h
      exact ih attr service tl tl2 h k
    · rcases hcc : s.cpu_cores_used with _ | cores
      · simp only [addCpuSamples, hts, hcc] at h
        exact ih attr service tl tl2 h k
      · simp only [addCpuSamples, hts, hcc] at h
        cases hn : normalize_ts t with
        | none => rw [hn] at h; exact absurd h (by simp)
        | some nts =>
          rw [hn] at h
          simp only [Option.some_bind] at h
          rw [ih attr service _ tl2 h k]
          have hup := alookup_updateAList k nts (⟨none, none⟩ : TimelineEntry)
            (fun e => { e with services := some (setAList service (mkSvcRecord attr cores s.cpu_percent_host) (e.services.getD [])) }) tl
          by_cases hk : nts = k
          · subst hk
            rw [if_pos rfl] at hup
            rw [hup]
            cases halo : alookup nts tl <;> simp [halo]
          · rw [if_neg hk] at hup
            rw [hup]

lemma addCpu_shelly : ∀ (cad : List (String × List CpuSample)) (attr : ShellyPowerAttributor)
    (tl tl2 : Timeline),
    addCpu attr tl cad = some tl2 → ∀ k,
      (alookup k tl2).bind (fun e => e.shelly) = (alookup k tl).bind (fun e => e.shelly) := by
  intro cad
  induction cad with
  | nil =>
    intro attr tl tl2 h k
    simp only [addCpu, Option.some.injEq] at h
    subst h
    rfl
  | cons p rest ih =>
    intro attr tl tl2 h k
    simp only [addCpu] at h
    cases h1 : addCpuSamples attr p.1 tl p.2 with
    | none => rw [h1] at h; exact absurd h (by simp)
    | some tlm =>
      rw [h1] at h
      simp only [Option.some_bind] at h
      rw [ih attr tlm tl2 h k]
      exact addCpuSamples_shelly p.2 attr p.1 tl tlm h1 k

/-- C7: in a successfully built timeline, the power entry stored at each
key equals the reading of the last input power sample (in input order)
carrying both `ts` and `power_w` whose timestamp normalizes to that key;
samples missing either field contribute nothing, and keys with no such
sample carry no power entry. -/
theorem claim_C7 (attr : ShellyPowerAttributor) (ss : List ShellySample)
    (cad : List (String × List CpuSample)) (tl : Timeline)
    (h : build_timeline attr ss cad = some tl) (k : String) :
    (alookup k tl).bind (fun e => e.shelly) = lastValidShellyAt ss k := by
  simp only [build_timeline] at h
  cases h1 : addShelly [] ss with
  | none => rw [h1] at h; exact absurd h (by simp)
  | some tl1 =>
    rw [h1] at h
    simp only [Option.some_bind] at h
    rw [addCpu_shelly cad attr tl1 tl h k, addShelly_lookup ss [] tl1 h1 k]
    simp [alookup, oor_none_right]

/-- Input for the C7 witness: two valid samples normalizing to the same
second (the second wins) and one sample missing `ts` (skipped). -/
def w7samples : List ShellySample :=
  [⟨some "2024-01-01T00:00:05+00:00", some 10, none⟩,
   ⟨none, some 99, none⟩,
   ⟨some "2024-01-01T00:00:05.500000+00:00", some 20, some 230⟩]

/-- Witness for C7: the duplicate key stores the last valid reading. -/
theorem claim_C7_witness :
    build_timeline defaultAttributor w7samples [] =
      some [("2024-01-01T00:00:05+00:00", ⟨some ⟨20, some 230⟩, none⟩)] ∧
    (alookup "2024-01-01T00:00:05+00:00"
        [("2024-01-01T00:00:05+00:00", (⟨some ⟨20, some 230⟩, none⟩ : TimelineEntry))]).bind
      (fun e => e.shelly) = lastValidShellyAt w7samples "2024-01-01T00:00:05+00:00" :=
  ⟨by decide,
   claim_C7 defaultAttributor w7samples []
     [("2024-01-01T00:00:05+00:00", ⟨some ⟨20, some 230⟩, none⟩)] (by decide)
     "2024-01-01T00:00:05+00:00"⟩

/-! ### C5: export order -/

/-- Epoch of an exported record's timestamp (0 on a parse failure, which
does not occur on timeline keys). -/
def recEpoch (r : ExportRecord) : ℚ := (ts_to_epoch r.ts).getD 0

/-- Epoch of a timeline key. -/
def keyEpoch (p : String × AlignedEntry) : ℚ := (ts_to_epoch p.1).getD 0

/-- A series is ordered by time: consecutive entries have non-decreasing
timestamps. -/
def Chronological (l : List ExportRecord) : Prop :=
  List.Chain' (fun a b => recEpoch a ≤ recEpoch b) l

lemma ts_to_epoch_of_parse (s : String) (dt : PyDateTime) (v : ℚ)
    (hp : parseIso s.data = some dt)
    (hv : ((86400 * rataDie dt.year dt.month dt.day + 3600 * (dt.hour : ℤ) +
        60 * (dt.minute : ℤ) + (dt.second : ℤ) - dt.utcoffset.getD 0 : ℤ) : ℚ) +
        (dt.microsecond : ℚ) / 1000000 = v) :
    ts_to_epoch s = some v := by
  simp only [ts_to_epoch, hp, Option.map_some']
  rw [hv]

lemma epoch_t10 : ts_to_epoch "2024-01-01T00:00:10+00:00" = some 1704067210 := by
  refine ts_to_epoch_of_parse _ ⟨2024, 1, 1, 0, 0, 10, 0, some 0⟩ _ (by decide) ?_
  norm_num [(by decide : rataDie 2024 1 1 = 19723)]

lemma epoch_t5 : ts_to_epoch "2024-01-01T00:00:05+00:00" = some 1704067205 := by
  refine ts_to_epoch_of_parse _ ⟨2024, 1, 1, 0, 0, 5, 0, some 0⟩ _ (by decide) ?_
  norm_num [(by decide : rataDie 2024 1 1 = 19723)]

/-- Power samples for the C5 counterexample, ingested in reverse time
order (t=10 s before t=5 s). -/
def cexShelly : List ShellySample :=
  [⟨some "2024-01-01T00:00:10+00:00", some 10, none⟩,
   ⟨some "2024-01-01T00:00:05+00:00", some 20, none⟩]

/-- CPU samples for the C5 counterexample, also in reverse time order. -/
def cexCad : List (String × List CpuSample) :=
  [("a", [⟨some "2024-01-01T00:00:10+00:00", some 1, some 25⟩,
          ⟨some "2024-01-01T00:00:05+00:00", some 1, some 25⟩])]

/-- Timeline built from the counterexample samples (keys in ingestion
order). -/
def cexTL : Timeline :=
  [("2024-01-01T00:00:10+00:00", ⟨some ⟨10, none⟩, some [("a", ⟨1, 25, none⟩)]⟩),
   ("2024-01-01T00:00:05+00:00", ⟨some ⟨20, none⟩, some [("a", ⟨1, 25, none⟩)]⟩)]

/-- Aligned counterexample timeline. -/
def cexAligned : List (String × AlignedEntry) :=
  [("2024-01-01T00:00:10+00:00", ⟨⟨10, none⟩, [("a", ⟨1, 25, none⟩)]⟩),
   ("2024-01-01T00:00:05+00:00", ⟨⟨20, none⟩, [("a", ⟨1, 25, none⟩)]⟩)]

/-- Attributed counterexample timeline. -/
def cexAttr : List (String × AlignedEntry) :=
  [("2024-01-01T00:00:10+00:00", ⟨⟨10, none⟩, [("a", ⟨1, 25, some 10⟩)]⟩),
   ("2024-01-01T00:00:05+00:00", ⟨⟨20, none⟩, [("a", ⟨1, 25, some 20⟩)]⟩)]

/-- Exported record of the counterexample at t=10 s. -/
def cexR10 : ExportRecord := ⟨"2024-01-01T00:00:10+00:00", 1, 25, some 10⟩

/-- Exported record of the counterexample at t=5 s. -/
def cexR5 : ExportRecord := ⟨"2024-01-01T00:00:05+00:00", 1, 25, some 20⟩

/-- Counterexample to C5 as stated: raw samples ingested in reverse time
order flow through the whole pipeline into a per-service series whose
consecutive timestamps are strictly decreasing — `export_per_service`
preserves dict insertion order and never sorts. -/
theorem claim_C5_cex :
    build_timeline defaultAttributor cexShelly cexCad = some cexTL ∧
    align_timeline defaultAttributor cexTL = some cexAligned ∧
    attributeTimeline defaultAttributor cexAligned = some cexAttr ∧
    export_per_service cexAttr = [("a", [cexR10, cexR5])] ∧
    ¬ Chronological [cexR10, cexR5] := by
  refine ⟨by decide, ?_, ?_, by decide, ?_⟩
  · norm_num [align_timeline, align_go, shelly_only, service_only, nearest_by_time,
      nearest_aux, nearest_threshold, cexTL, cexAligned, defaultAttributor, epoch_t10, epoch_t5]
  · norm_num [attributeTimeline, attributeEntry, svcCpuTotal, cexAligned, cexAttr,
      defaultAttributor]
  · intro hc
    rcases hc with _ | ⟨hle, -⟩
    rw [show recEpoch cexR10 = 1704067210 from by simp [recEpoch, cexR10, epoch_t10],
        show recEpoch cexR5 = 1704067205 from by simp [recEpoch, cexR5, epoch_t5]] at hle
    norm_num at hle

lemma alookup_mem {β : Type} (k : String) (v : β) :
    ∀ l : List (String × β), alookup k l = some v → (k, v) ∈ l := by
  intro l
  induction l with
  | nil => intro h; exact absurd h (by simp [alookup])
  | cons p rest ih =>
    intro h
    rw [alookup] at h
    by_cases h1 : p.1 = k
    · rw [if_pos h1] at h
      rcases Option.some.inj h with rfl
      have hp : (k, p.2) = p := Prod.ext_iff.mpr ⟨h1.symm, rfl⟩
      rw [hp]
      exact List.mem_cons_self p rest
    · rw [if_neg h1] at h
      exact List.mem_cons_of_mem p (ih h)

lemma export_inner_inv (ts : String) (B : ExportRecord → Prop)
    (hBnew : ∀ s : SvcRecord, B (exportRecordOf ts s))
    (hc : ∀ r, B r → recEpoch r ≤ (ts_to_epoch ts).getD 0) :
    ∀ (svcs : List (String × SvcRecord)) (out : List (String × List ExportRecord)),
    (∀ q ∈ out, List.Chain' (fun a b => recEpoch a ≤ recEpoch b) q.2 ∧ ∀ r ∈ q.2, B r) →
    ∀ q ∈ svcs.foldl (fun o p => updateAList p.1 [] (fun l => l ++ [exportRecordOf ts p.2]) o) out,
      List.Chain' (fun a b => recEpoch a ≤ recEpoch b) q.2 ∧ ∀ r ∈ q.2, B r := by
  intro svcs
  induction svcs with
  | nil => intro out hout q hq; exact hout q hq
  | cons p ps ih =>
    intro out hout q hq
    rw [List.foldl_cons] at hq
    refine ih _ ?_ q hq
    intro q2 hq2
    rcases mem_updateAList p.1 [] (fun l => l ++ [exportRecordOf ts p.2]) out q2 hq2 with h | h
    · exact hout q2 h
    · subst h
      set old := (alookup p.1 out).getD [] with hold
      have holdP : List.Chain' (fun a b => recEpoch a ≤ recEpoch b) old ∧ ∀ r ∈ old, B r := by
        cases halo : alookup p.1 out with
        | none => simp [hold, halo]
        | some l0 =>
          have := hout (p.1, l0) (alookup_mem p.1 l0 out halo)
          simpa [hold, halo] using this
      constructor
      · rw [List.chain'_append]
        refine ⟨holdP.1, List.chain'_singleton _, ?_⟩
        intro x hx y hy
        have hy2 : exportRecordOf ts p.2 = y := by simpa using hy
        rcases hy2 with rfl
        obtain ⟨hne, rfl⟩ := List.mem_getLast?_eq_getLast hx
        exact hc _ (holdP.2 _ (List.getLast_mem hne))
      · intro r hr
        rcases List.mem_append.mp hr with h | h
        · exact holdP.2 r h
        · rcases List.mem_singleton.mp h with rfl
          exact hBnew p.2

lemma export_fold_chron :
    ∀ (rest : List (String × AlignedEntry)) (out : List (String × List ExportRecord)),
    List.Pairwise (fun a b => keyEpoch a ≤ keyEpoch b) rest →
    (∀ q ∈ out, List.Chain' (fun a b => recEpoch a ≤ recEpoch b) q.2 ∧
      ∀ r ∈ q.2, ∀ p2 ∈ rest, recEpoch r ≤ keyEpoch p2) →
    ∀ q ∈ rest.foldl
        (fun o p => p.2.services.foldl
          (fun o2 q2 => updateAList q2.1 [] (fun l => l ++ [exportRecordOf p.1 q2.2]) o2) o)
        out,
      List.Chain' (fun a b => recEpoch a ≤ recEpoch b) q.2 := by
  intro rest
  induction rest with
  | nil => intro out _ hout q hq; exact (hout q hq).1
  | cons p ps ih =>
    intro out hpw hout q hq
    rw [List.foldl_cons] at hq
    rcases List.pairwise_cons.mp hpw with ⟨hrel, hpw2⟩
    refine ih _ hpw2 ?_ q hq
    have hinner := export_inner_inv p.1
      (fun r => ∀ p2 ∈ p :: ps, recEpoch r ≤ keyEpoch p2)
      (fun s p2 hp2 => by
        rcases List.mem_cons.mp hp2 with rfl | h
        · exact le_of_eq rfl
        · exact hrel p2 h)
      (fun r hB => hB p (List.mem_cons_self p ps))
      p.2.services out hout
    intro q2 hq2
    exact ⟨(hinner q2 hq2).1,
      fun r hr p2 hp2 => (hinner q2 hq2).2 r hr p2 (List.mem_cons_of_mem p hp2)⟩

/-- C5 (amended): `export_per_service` preserves the attributed
timeline's key order within each service's series; whenever the
attributed timeline's keys are in non-decreasing time order, every
exported per-service series is ordered by time.  (As stated the claim is
false: the timeline keys are in ingestion order, never sorted, so an
out-of-order ingestion yields an out-of-order series.) -/
theorem claim_C5 (al : List (String × AlignedEntry))
    (h : List.Pairwise (fun a b => keyEpoch a ≤ keyEpoch b) al)
    (svc : String) (l : List ExportRecord)
    (hl : alookup svc (export_per_service al) = some l) :
    Chronological l :=
  export_fold_chron al [] h (fun q hq => absurd hq (List.not_mem_nil q)) (svc, l)
    (alookup_mem svc l (export_per_service al) hl)

/-- Chronologically ordered attributed timeline for the C5 witness. -/
def w5al : List (String × AlignedEntry) :=
  [("2024-01-01T00:00:05+00:00", ⟨⟨20, none⟩, [("a", ⟨1, 25, some 20⟩)]⟩),
   ("2024-01-01T00:00:10+00:00", ⟨⟨10, none⟩, [("a", ⟨1, 25, some 10⟩)]⟩)]

/-- Witness for the amended C5: a time-sorted attributed timeline
exports a chronological series. -/
theorem claim_C5_witness :
    List.Pairwise (fun a b => keyEpoch a ≤ keyEpoch b) w5al ∧
    alookup "a" (export_per_service w5al) =
      some [⟨"2024-01-01T00:00:05+00:00", 1, 25, some 20⟩,
            ⟨"2024-01-01T00:00:10+00:00", 1, 25, some 10⟩] ∧
    Chronological [⟨"2024-01-01T00:00:05+00:00", 1, 25, some 20⟩,
                   ⟨"2024-01-01T00:00:10+00:00", 1, 25, some 10⟩] := by
  have hpw : List.Pairwise (fun a b => keyEpoch a ≤ keyEpoch b) w5al := by
    rw [w5al]
    refine List.pairwise_cons.mpr ⟨?_, List.pairwise_singleton _ _⟩
    intro b hb
    rcases List.mem_singleton.mp hb with rfl
    rw [show keyEpoch ("2024-01-01T00:00:05+00:00",
        (⟨⟨20, none⟩, [("a", ⟨1, 25, some 20⟩)]⟩ : AlignedEntry)) = 1704067205 from by
      simp [keyEpoch, epoch_t5]]
    rw [show keyEpoch ("2024-01-01T00:00:10+00:00",
        (⟨⟨10, none⟩, [("a", ⟨1, 25, some 10⟩)]⟩ : AlignedEntry)) = 1704067210 from by
      simp [keyEpoch, epoch_t10]]
    norm_num
  have hlk : alookup "a" (export_per_service w5al) =
      some [⟨"2024-01-01T00:00:05+00:00", 1, 25, some 20⟩,
            ⟨"2024-01-01T00:00:10+00:00", 1, 25, some 10⟩] := by decide
  exact ⟨hpw, hlk, claim_C5 w5al hpw "a" _ hlk⟩

/-! ### C2: nearest-neighbour alignment -/

lemma nearest_aux_min (target : ℚ) :
    ∀ (cands : List (String × ShellyReading)) (best : Option ShellyReading) (bestD : Option ℚ)
      (res : Option ShellyReading × Option ℚ),
    nearest_aux target cands best bestD = some res →
    (∀ bd, bestD = some bd → ∃ d, res.2 = some d ∧ d ≤ bd) ∧
    (∀ k sh, (k, sh) ∈ cands → ∀ e, ts_to_epoch k = some e →
      ∃ d, res.2 = some d ∧ d ≤ |e - target|) := by
  intro cands
  induction cands with
  | nil =>
    intro best bestD res h
    simp only [nearest_aux, Option.some.injEq] at h
    subst h
    refine ⟨fun bd hbd => ⟨bd, by rw [hbd], le_refl bd⟩, ?_⟩
    intro k sh hk
    exact absurd hk (List.not_mem_nil _)
  | cons c cs ih =>
    intro best bestD res h
    cases hbD : bestD with
    | none =>
      rw [hbD] at h
      simp only [nearest_aux] at h
      cases he : ts_to_epoch c.1 with
      | none => rw [he] at h; exact absurd h (by simp)
      | some e =>
        rw [he] at h
        simp only [Option.some_bind] at h
        have IH := ih (some c.2) (some |e - target|) res h
        constructor
        · intro bd hbd
          exact absurd hbd (by simp)
        · intro k sh hmem e2 he2
          rcases List.mem_cons.mp hmem with hhd | htl
          · have hk : k = c.1 := by rw [← hhd]
            subst hk
            have he2e : e2 = e := Option.some.inj (he2.symm.trans he)
            subst he2e
            exact IH.1 |e2 - target| rfl
          · exact IH.2 k sh htl e2 he2
    | some bd =>
      rw [hbD] at h
      simp only [nearest_aux] at h
      cases he : ts_to_epoch c.1 with
      | none => rw [he] at h; exact absurd h (by simp)
      | some e =>
        rw [he] at h
        simp only [Option.some_bind] at h
        by_cases hlt : |e - target| < bd
        · rw [if_pos hlt] at h
          have IH := ih (some c.2) (some |e - target|) res h
          constructor
          · intro bd2 hbd2
            rcases Option.some.inj hbd2 with rfl
            obtain ⟨d, hd, hdle⟩ := IH.1 |e - target| rfl
            exact ⟨d, hd, hdle.trans hlt.le⟩
          · intro k sh hmem e2 he2
            rcases List.mem_cons.mp hmem with hhd | htl
            · have hk : k = c.1 := by rw [← hhd]
              subst hk
              have he2e : e2 = e := Option.some.inj (he2.symm.trans he)
              subst he2e
              exact IH.1 |e2 - target| rfl
            · exact IH.2 k sh htl e2 he2
        · rw [if_neg hlt] at h
          have IH := ih best (some bd) res h
          constructor
          · intro bd2 hbd2
            rcases Option.some.inj hbd2 with rfl
            exact IH.1 _ rfl
          · intro k sh hmem e2 he2
            rcases List.mem_cons.mp hmem with hhd | htl
            · have hk : k = c.1 := by rw [← hhd]
              subst hk
              have he2e : e2 = e := Option.some.inj (he2.symm.trans he)
              subst he2e
              obtain ⟨d, hd, hdle⟩ := IH.1 bd rfl
              exact ⟨d, hd, hdle.trans (not_lt.mp hlt)⟩
            · exact IH.2 k sh htl e2 he2

lemma nearest_aux_best (target : ℚ) :
    ∀ (cands : List (String × ShellyReading)) (best : Option ShellyReading) (bestD : Option ℚ)
      (res : Option ShellyReading × Option ℚ),
    nearest_aux target cands best bestD = some res →
    (res.1 = best ∧ res.2 = bestD) ∨
    (∃ k sh e, (k, sh) ∈ cands ∧ ts_to_epoch k = some e ∧
      res.1 = some sh ∧ res.2 = some |e - target|) := by
  intro cands
  induction cands with
  | nil =>
    intro best bestD res h
    simp only [nearest_aux, Option.some.injEq] at h
    subst h
    exact Or.inl ⟨rfl, rfl⟩
  | cons c cs ih =>
    intro best bestD res h
    cases hbD : bestD with
    | none =>
      rw [hbD] at h
      simp only [nearest_aux] at h
      cases he : ts_to_epoch c.1 with
      | none => rw [he] at h; exact absurd h (by simp)
      | some e =>
        rw [he] at h
        simp only [Option.some_bind] at h
        rcases ih (some c.2) (some |e - target|) res h with ⟨h1, h2⟩ | ⟨k, sh, e2, hm, hke, h1, h2⟩
        · exact Or.inr ⟨c.1, c.2, e, List.mem_cons_self c cs, he, h1, h2⟩
        · exact Or.inr ⟨k, sh, e2, List.mem_cons_of_mem c hm, hke, h1, h2⟩
    | some bd =>
      rw [hbD] at h
      simp only [nearest_aux] at h
      cases he : ts_to_epoch c.1 with
      | none => rw [he] at h; exact absurd h (by simp)
      | some e =>
        rw [he] at h
        simp only [Option.some_bind] at h
        by_cases hlt : |e - target| < bd
        · rw [if_pos hlt] at h
          rcases ih (some c.2) (some |e - target|) res h with ⟨h1, h2⟩ | ⟨k, sh, e2, hm, hke, h1, h2⟩
          · exact Or.inr ⟨c.1, c.2, e, List.mem_cons_self c cs, he, h1, h2⟩
          · exact Or.inr ⟨k, sh, e2, List.mem_cons_of_mem c hm, hke, h1, h2⟩
        · rw [if_neg hlt] at h
          rcases ih best (some bd) res h with ⟨h1, h2⟩ | ⟨k, sh, e2, hm, hke, h1, h2⟩
          · exact Or.inl ⟨h1, h2⟩
          · exact Or.inr ⟨k, sh, e2, List.mem_cons_of_mem c hm, hke, h1, h2⟩

lemma nearest_by_time_spec (cands : List (String × ShellyReading)) (t maxS : ℚ)
    (m : Option ShellyReading) (h : nearest_by_time cands t maxS = some m) :
    (∀ sh, m = some sh →
      ∃ k e, (k, sh) ∈ cands ∧ ts_to_epoch k = some e ∧ |e - t| ≤ maxS ∧
        ∀ k2 sh2, (k2, sh2) ∈ cands → ∀ e2, ts_to_epoch k2 = some e2 → |e - t| ≤ |e2 - t|) ∧
    (m = none → ∀ k sh, (k, sh) ∈ cands → ∀ e, ts_to_epoch k = some e → maxS < |e - t|) := by
  simp only [nearest_by_time] at h
  cases haux : nearest_aux t cands none none with
  | none => rw [haux] at h; exact absurd h (by simp)
  | some res =>
    rw [haux] at h
    simp only [Option.map_some', Option.some.injEq] at h
    have hmin := nearest_aux_min t cands none none res haux
    have hbest := nearest_aux_best t cands none none res haux
    obtain ⟨b, d⟩ := res
    constructor
    · intro sh hm
      subst hm
      cases d with
      | none => simp only [nearest_threshold] at h; exact absurd h (by simp)
      | some bd =>
        simp only [nearest_threshold] at h
        by_cases hle : bd ≤ maxS
        · rw [if_pos hle] at h
          rcases hbest with ⟨h1, h2⟩ | ⟨k, sh2, e, hmem, he, h1, h2⟩
          · have h1b : b = none := h1
            rw [h1b] at h
            exact absurd h (by simp)
          · have h1b : b = some sh2 := h1
            rw [h1b] at h
            rcases Option.some.inj h with rfl
            have h2b : some bd = some |e - t| := h2
            rcases Option.some.inj h2b with rfl
            refine ⟨k, e, hmem, he, hle, ?_⟩
            intro k2 sh3 hmem2 e2 he2
            obtain ⟨d2, hd2, hdle⟩ := hmin.2 k2 sh3 hmem2 e2 he2
            have hd2b : some |e - t| = some d2 := hd2
            rcases Option.some.inj hd2b with rfl
            exact hdle
        · rw [if_neg hle] at h
          exact absurd h (by simp)
    · intro hm k sh hmem e he
      subst hm
      obtain ⟨d2, hd2, hdle⟩ := hmin.2 k sh hmem e he
      have hd2b : d = some d2 := hd2
      subst hd2b
      simp only [nearest_threshold] at h
      by_cases hle : d2 ≤ maxS
      · rw [if_pos hle] at h
        rcases hbest with ⟨h1, h2⟩ | ⟨k2, sh2, e2, hmem2, he2, h1, h2⟩
        · have h2b : some d2 = (none : Option ℚ) := h2
          exact absurd h2b (by simp)
        · have h1b : b = some sh2 := h1
          rw [h1b] at h
          exact absurd h (by simp)
      · exact lt_of_lt_of_le (not_le.mp hle) hdle

lemma align_go_keys (sh : List (String × ShellyReading)) (maxS : ℚ) :
    ∀ (l : List (String × List (String × SvcRecord))) (al : List (String × AlignedEntry)),
    align_go sh maxS l = some al → ∀ q ∈ al, q.1 ∈ l.map Prod.fst := by
  intro l
  induction l with
  | nil =>
    intro al h q hq
    simp only [align_go, Option.some.injEq] at h
    subst h
    exact absurd hq (List.not_mem_nil q)
  | cons p ps ih =>
    intro al h q hq
    simp only [align_go] at h
    cases he : ts_to_epoch p.1 with
    | none => rw [he] at h; exact absurd h (by simp)
    | some e =>
      rw [he] at h
      simp only [Option.some_bind] at h
      cases hm : nearest_by_time sh e maxS with
      | none => rw [hm] at h; exact absurd h (by simp)
      | some m =>
        rw [hm] at h
        simp only [Option.some_bind] at h
        cases htail : align_go sh maxS ps with
        | none => rw [htail] at h; exact absurd h (by simp)
        | some tail =>
          rw [htail] at h
          simp only [Option.map_some', Option.some.injEq] at h
          cases m with
          | none =>
            subst h
            exact List.mem_cons_of_mem _ (ih tail htail q hq)
          | some shm =>
            subst h
            rcases List.mem_cons.mp hq with h1 | h1
            · rw [h1]
              exact List.mem_cons_self p.1 _
            · exact List.mem_cons_of_mem _ (ih tail htail q h1)

lemma alookup_eq_none {β : Type} (k : String) :
    ∀ l : List (String × β), k ∉ l.map Prod.fst → alookup k l = none := by
  intro l
  induction l with
  | nil => intro _; rfl
  | cons p rest ih =>
    intro hk
    rw [alookup]
    rw [List.map_cons, List.mem_cons] at hk
    push_neg at hk
    rw [if_neg (fun hh => hk.1 hh.symm)]
    exact ih hk.2

lemma align_go_lookup (sh : List (String × ShellyReading)) (maxS : ℚ) :
    ∀ (l : List (String × List (String × SvcRecord))) (al : List (String × AlignedEntry)),
    align_go sh maxS l = some al → (l.map Prod.fst).Nodup →
    ∀ p ∈ l,
      ∃ e, ts_to_epoch p.1 = some e ∧ ∃ m, nearest_by_time sh e maxS = some m ∧
        ((m = none ∧ alookup p.1 al = none) ∨
         (∃ shm, m = some shm ∧ alookup p.1 al = some ⟨shm, p.2⟩)) := by
  intro l
  induction l with
  | nil =>
    intro al _ _ p hp
    exact absurd hp (List.not_mem_nil p)
  | cons hd ps ih =>
    intro al h hnd p hp
    simp only [align_go] at h
    cases he : ts_to_epoch hd.1 with
    | none => rw [he] at h; exact absurd h (by simp)
    | some e0 =>
      rw [he] at h
      simp only [Option.some_bind] at h
      cases hm : nearest_by_time sh e0 maxS with
      | none => rw [hm] at h; exact absurd h (by simp)
      | some m0 =>
        rw [hm] at h
        simp only [Option.some_bind] at h
        cases htail : align_go sh maxS ps with
        | none => rw [htail] at h; exact absurd h (by simp)
        | some tail =>
          rw [htail] at h
          simp only [Option.map_some', Option.some.injEq] at h
          rw [List.map_cons, List.nodup_cons] at hnd
          rcases List.mem_cons.mp hp with hphd | hptl
          · subst hphd
            refine ⟨e0, he, m0, hm, ?_⟩
            cases m0 with
            | none =>
              subst h
              refine Or.inl ⟨rfl, alookup_eq_none p.1 tail ?_⟩
              intro hmem
              rcases List.mem_map.mp hmem with ⟨q, hq, hq1⟩
              exact hnd.1 (hq1 ▸ align_go_keys sh maxS ps tail htail q hq)
            | some shm =>
              subst h
              refine Or.inr ⟨shm, rfl, ?_⟩
              rw [alookup, if_pos rfl]
          · have hp1ne : hd.1 ≠ p.1 := by
              intro hh
              exact hnd.1 (hh ▸ List.mem_map.mpr ⟨p, hptl, rfl⟩)
            obtain ⟨e, hee, m, hmm, hres⟩ := ih tail htail hnd.2 p hptl
            refine ⟨e, hee, m, hmm, ?_⟩
            cases m0 with
            | none =>
              subst h
              exact hres
            | some shm =>
              subst h
              have hlk : alookup p.1 ((hd.1, (⟨shm, hd.2⟩ : AlignedEntry)) :: tail) =
                  alookup p.1 tail := by
                rw [alookup, if_neg hp1ne]
              rw [hlk]
              exact hres

/-- C2: for every timestamp with a services entry in the timeline (and a
parseable epoch), if some power-bearing key lies within
`max_time_skew_s`, the aligned result pairs that timestamp with a power
reading at minimal absolute time distance (in particular within the
skew); if every power-bearing key is farther than the skew, the
timestamp is absent from the aligned result. -/
theorem claim_C2 (attr : ShellyPowerAttributor) (tl : Timeline)
    (al : List (String × AlignedEntry)) (hal : align_timeline attr tl = some al)
    (hnd : ((service_only tl).map Prod.fst).Nodup)
    (ts : String) (svcs : List (String × SvcRecord)) (hmem : (ts, svcs) ∈ service_only tl)
    (_hne : svcs ≠ []) (t : ℚ) (ht : ts_to_epoch ts = some t) :
    ((∃ k sh e, (k, sh) ∈ shelly_only tl ∧ ts_to_epoch k = some e ∧
        |e - t| ≤ attr.max_time_skew_s) →
      ∃ k sh e, (k, sh) ∈ shelly_only tl ∧ ts_to_epoch k = some e ∧
        |e - t| ≤ attr.max_time_skew_s ∧ alookup ts al = some ⟨sh, svcs⟩ ∧
        ∀ k2 sh2, (k2, sh2) ∈ shelly_only tl → ∀ e2, ts_to_epoch k2 = some e2 →
          |e - t| ≤ |e2 - t|) ∧
    ((∀ k sh, (k, sh) ∈ shelly_only tl → ∀ e, ts_to_epoch k = some e →
        attr.max_time_skew_s < |e - t|) →
      alookup ts al = none) := by
  obtain ⟨e, he, m, hm, hres⟩ := align_go_lookup (shelly_only tl) attr.max_time_skew_s
    (service_only tl) al hal hnd (ts, svcs) hmem
  have het : e = t := Option.some.inj (he.symm.trans ht)
  subst het
  have hspec := nearest_by_time_spec (shelly_only tl) e attr.max_time_skew_s m hm
  constructor
  · rintro ⟨k, sh, e2, hkmem, hke, hkle⟩
    rcases hres with ⟨hm0, hlk⟩ | ⟨shm, hm0, hlk⟩
    · exact absurd hkle (not_le.mpr (hspec.2 hm0 k sh hkmem e2 hke))
    · obtain ⟨k3, e3, h3mem, h3e, h3le, h3min⟩ := hspec.1 shm hm0
      exact ⟨k3, shm, e3, h3mem, h3e, h3le, hlk, h3min⟩
  · intro hall
    rcases hres with ⟨hm0, hlk⟩ | ⟨shm, hm0, hlk⟩
    · exact hlk
    · obtain ⟨k3, e3, h3mem, h3e, h3le, _⟩ := hspec.1 shm hm0
      exact absurd h3le (not_le.mpr (hall k3 shm h3mem e3 h3e))

/-- Timeline for the C2 witness: one power-bearing key at t=5 s and one
service-bearing key at t=10 s (distance 5 s, exactly the default
skew). -/
def c2tl : Timeline :=
  [("2024-01-01T00:00:05+00:00", ⟨some ⟨20, none⟩, none⟩),
   ("2024-01-01T00:00:10+00:00", ⟨none, some [("a", ⟨1, 25, none⟩)]⟩)]

/-- Aligned result of `c2tl`. -/
def c2al : List (String × AlignedEntry) :=
  [("2024-01-01T00:00:10+00:00", ⟨⟨20, none⟩, [("a", ⟨1, 25, none⟩)]⟩)]

/-- Witness for C2 on the concrete timeline `c2tl`. -/
theorem claim_C2_witness :
    (align_timeline defaultAttributor c2tl = some c2al ∧
      ((service_only c2tl).map Prod.fst).Nodup ∧
      ("2024-01-01T00:00:10+00:00",
        [("a", (⟨1, 25, none⟩ : SvcRecord))]) ∈ service_only c2tl ∧
      ts_to_epoch "2024-01-01T00:00:10+00:00" = some 1704067210) ∧
    ((∃ k sh e, (k, sh) ∈ shelly_only c2tl ∧ ts_to_epoch k = some e ∧
        |e - 1704067210| ≤ defaultAttributor.max_time_skew_s) →
      ∃ k sh e, (k, sh) ∈ shelly_only c2tl ∧ ts_to_epoch k = some e ∧
        |e - 1704067210| ≤ defaultAttributor.max_time_skew_s ∧
        alookup "2024-01-01T00:00:10+00:00" c2al =
          some ⟨sh, [("a", ⟨1, 25, none⟩)]⟩ ∧
        ∀ k2 sh2, (k2, sh2) ∈ shelly_only c2tl → ∀ e2, ts_to_epoch k2 = some e2 →
          |e - 1704067210| ≤ |e2 - 1704067210|) ∧
    ((∀ k sh, (k, sh) ∈ shelly_only c2tl → ∀ e, ts_to_epoch k = some e →
        defaultAttributor.max_time_skew_s < |e - 1704067210|) →
      alookup "2024-01-01T00:00:10+00:00" c2al = none) := by
  have hal : align_timeline defaultAttributor c2tl = some c2al := by
    norm_num [align_timeline, align_go, shelly_only, service_only, nearest_by_time,
      nearest_aux, nearest_threshold, c2tl, c2al, defaultAttributor, epoch_t10, epoch_t5]
  have hnd : ((service_only c2tl).map Prod.fst).Nodup := by decide
  have hmem : ("2024-01-01T00:00:10+00:00",
      [("a", (⟨1, 25, none⟩ : SvcRecord))]) ∈ service_only c2tl := by decide
  have hcc := claim_C2 defaultAttributor c2tl c2al hal hnd "2024-01-01T00:00:10+00:00"
    [("a", (⟨1, 25, none⟩ : SvcRecord))] hmem (by decide) 1704067210 epoch_t10
  exact ⟨⟨hal, hnd, hmem, epoch_t10⟩, hcc.1, hcc.2⟩

/-! ### C6: normalization is canonical and idempotent -/

lemma digit?_digitChar : ∀ k < 10, digit? (Nat.digitChar k) = some k := by decide

lemma digit2_pad2 (n : ℕ) (h : n ≤ 99) :
    digit2 (Nat.digitChar (n / 10 % 10)) (Nat.digitChar (n % 10)) = some n := by
  have h1 := digit?_digitChar (n / 10 % 10) (by omega)
  have h2 := digit?_digitChar (n % 10) (by omega)
  simp only [digit2, h1, h2]
  congr 1
  omega

lemma digit4_pad4 (n : ℕ) (h : n ≤ 9999) :
    digit4 (Nat.digitChar (n / 1000 % 10)) (Nat.digitChar (n / 100 % 10))
      (Nat.digitChar (n / 10 % 10)) (Nat.digitChar (n % 10)) = some n := by
  have h1 := digit?_digitChar (n / 1000 % 10) (by omega)
  have h2 := digit?_digitChar (n / 100 % 10) (by omega)
  have h3 := digit?_digitChar (n / 10 % 10) (by omega)
  have h4 := digit?_digitChar (n % 10) (by omega)
  simp only [digit4, h1, h2, h3, h4]
  congr 1
  omega

lemma daysInMonth_le (y m : ℕ) : daysInMonth y m ≤ 31 := by
  unfold daysInMonth
  split_ifs <;> omega

lemma daysInMonth_pos (y m : ℕ) : 1 ≤ daysInMonth y m := by
  unfold daysInMonth
  split_ifs <;> omega

lemma parseTime_valid (y mo d : ℕ) (cs : List Char) (dt : PyDateTime)
    (h : parseTime y mo d cs = some dt) :
    dt.year = y ∧ dt.month = mo ∧ dt.day = d ∧
    dt.hour ≤ 23 ∧ dt.minute ≤ 59 ∧ dt.second ≤ 59 := by
  unfold parseTime at h
  repeat' split at h
  all_goals try exact Option.noConfusion h
  all_goals rcases Option.some.inj h with rfl
  all_goals dsimp only
  all_goals exact ⟨rfl, rfl, rfl, by omega, by omega, by omega⟩

lemma parseIso_valid (cs : List Char) (dt : PyDateTime) (h : parseIso cs = some dt) :
    1 ≤ dt.year ∧ dt.year ≤ 9999 ∧ 1 ≤ dt.month ∧ dt.month ≤ 12 ∧ 1 ≤ dt.day ∧
    dt.day ≤ daysInMonth dt.year dt.month ∧ dt.hour ≤ 23 ∧ dt.minute ≤ 59 ∧
    dt.second ≤ 59 := by
  unfold parseIso at h
  repeat' split at h
  all_goals try exact Option.noConfusion h
  all_goals
    first
    | (rcases Option.some.inj h with rfl
       dsimp only
       exact ⟨by omega, by omega, by omega, by omega, by omega, by omega, by omega, by omega,
         by omega⟩)
    | (obtain ⟨hy, hmo, hd, hh0, hmi, hs⟩ := parseTime_valid _ _ _ _ _ h
       rw [hy, hmo, hd]
       exact ⟨by omega, by omega, by omega, by omega, by omega, by omega, hh0, hmi, hs⟩)

/-- Month/day validity of a calendar triple. -/
def ValidDate (p : ℕ × ℕ × ℕ) : Prop :=
  1 ≤ p.2.1 ∧ p.2.1 ≤ 12 ∧ 1 ≤ p.2.2 ∧ p.2.2 ≤ daysInMonth p.1 p.2.1

lemma nextDay_valid (p : ℕ × ℕ × ℕ) (hv : ValidDate p) : ValidDate (nextDay p) := by
  obtain ⟨y, m, d⟩ := p
  obtain ⟨h1, h2, h3, h4⟩ := hv
  dsimp only at h1 h2 h3 h4
  show ValidDate (if d < daysInMonth y m then (y, m, d + 1)
    else if m < 12 then (y, m + 1, 1) else (y + 1, 1, 1))
  split_ifs with hd hm
  · refine ⟨?_, ?_, ?_, ?_⟩ <;> dsimp only <;> omega
  · have hp := daysInMonth_pos y (m + 1)
    refine ⟨?_, ?_, ?_, ?_⟩ <;> dsimp only <;> omega
  · have hp := daysInMonth_pos (y + 1) 1
    refine ⟨?_, ?_, ?_, ?_⟩ <;> dsimp only <;> omega

lemma prevDay_valid (p : ℕ × ℕ × ℕ) (hv : ValidDate p) : ValidDate (prevDay p) := by
  obtain ⟨y, m, d⟩ := p
  obtain ⟨h1, h2, h3, h4⟩ := hv
  dsimp only at h1 h2 h3 h4
  show ValidDate (if 1 < d then (y, m, d - 1)
    else if 1 < m then (y, m - 1, daysInMonth y (m - 1)) else (y - 1, 12, 31))
  split_ifs with hd hm
  · refine ⟨?_, ?_, ?_, ?_⟩ <;> dsimp only <;> omega
  · have hp := daysInMonth_pos y (m - 1)
    refine ⟨?_, ?_, ?_, ?_⟩ <;> dsimp only <;> omega
  · have h31 : daysInMonth (y - 1) 12 = 31 := by simp [daysInMonth]
    refine ⟨?_, ?_, ?_, ?_⟩ <;> dsimp only <;> omega

lemma iterate_valid (f : ℕ × ℕ × ℕ → ℕ × ℕ × ℕ)
    (hf : ∀ p, ValidDate p → ValidDate (f p)) :
    ∀ (n : ℕ) (p : ℕ × ℕ × ℕ), ValidDate p → ValidDate (f^[n] p) := by
  intro n
  induction n with
  | zero => intro p hv; simpa using hv
  | succ k ih =>
    intro p hv
    rw [Function.iterate_succ_apply]
    exact ih (f p) (hf p hv)

lemma shiftDays_valid (p : ℕ × ℕ × ℕ) (k : ℤ) (hv : ValidDate p) :
    ValidDate (shiftDays p k) := by
  cases k with
  | ofNat n => exact iterate_valid nextDay nextDay_valid n p hv
  | negSucc n => exact iterate_valid prevDay prevDay_valid (n + 1) p hv

lemma shiftDays_zero (p : ℕ × ℕ × ℕ) : shiftDays p 0 = p := rfl

lemma astimezoneUTC_valid (dt dtu : PyDateTime)
    (h1 : 1 ≤ dt.year) (h2 : dt.year ≤ 9999) (h3 : 1 ≤ dt.month) (h4 : dt.month ≤ 12)
    (h5 : 1 ≤ dt.day) (h6 : dt.day ≤ daysInMonth dt.year dt.month)
    (h7 : dt.hour ≤ 23) (h8 : dt.minute ≤ 59) (h9 : dt.second ≤ 59)
    (h : astimezoneUTC dt = some dtu) :
    1 ≤ dtu.year ∧ dtu.year ≤ 9999 ∧ 1 ≤ dtu.month ∧ dtu.month ≤ 12 ∧ 1 ≤ dtu.day ∧
    dtu.day ≤ daysInMonth dtu.year dtu.month ∧ dtu.hour ≤ 23 ∧ dtu.minute ≤ 59 ∧
    dtu.second ≤ 59 ∧ dtu.microsecond = dt.microsecond ∧ dtu.utcoffset = some 0 := by
  obtain ⟨y, mo, d, hh, mi, s, mic, off⟩ := dt
  dsimp only at h1 h2 h3 h4 h5 h6 h7 h8 h9
  cases off with
  | none =>
    simp only [astimezoneUTC] at h
    rcases Option.some.inj h with rfl
    exact ⟨h1, h2, h3, h4, h5, h6, h7, h8, h9, rfl, rfl⟩
  | some o =>
    simp only [astimezoneUTC] at h
    split at h
    · rename_i hcond
      rcases Option.some.inj h with rfl
      have hsv := shiftDays_valid (y, mo, d)
        ((3600 * (hh : ℤ) + 60 * (mi : ℤ) + (s : ℤ) - o) / 86400) ⟨h3, h4, h5, h6⟩
      refine ⟨hcond.1, hcond.2, hsv.1, hsv.2.1, hsv.2.2.1, hsv.2.2.2, ?_, ?_, ?_, rfl, rfl⟩
      all_goals dsimp only
      all_goals omega
    · exact Option.noConfusion h

lemma astimezoneUTC_canonical (dt : PyDateTime)
    (h1 : 1 ≤ dt.year) (h2 : dt.year ≤ 9999)
    (h7 : dt.hour ≤ 23) (h8 : dt.minute ≤ 59) (h9 : dt.second ≤ 59)
    (hoff : dt.utcoffset = some 0) :
    astimezoneUTC dt = some dt := by
  obtain ⟨y, mo, d, hh, mi, s, mic, off⟩ := dt
  dsimp only at h1 h2 h7 h8 h9 hoff
  subst hoff
  simp only [astimezoneUTC]
  have htot : (3600 * (hh : ℤ) + 60 * (mi : ℤ) + (s : ℤ) - 0) / 86400 = 0 := by omega
  rw [htot, shiftDays_zero]
  rw [if_pos ⟨h1, h2⟩]
  have hch : ((3600 * (hh : ℤ) + 60 * (mi : ℤ) + (s : ℤ) - 0) % 86400 / 3600).toNat = hh := by
    omega
  have hcm : ((3600 * (hh : ℤ) + 60 * (mi : ℤ) + (s : ℤ) - 0) % 86400 % 3600 / 60).toNat = mi := by
    omega
  have hcs : ((3600 * (hh : ℤ) + 60 * (mi : ℤ) + (s : ℤ) - 0) % 86400 % 60).toNat = s := by
    omega
  rw [hch, hcm, hcs]

lemma digitChar_zero : Nat.digitChar 0 = '0' := rfl

lemma digit2_zero : digit2 '0' '0' = some 0 := by decide

/-- Rendering of a whole-second UTC datetime is the 25-character
canonical string. -/
lemma formatIso_canonical (y mo d hh mi s : ℕ) :
    formatIso ⟨y, mo, d, hh, mi, s, 0, some 0⟩ =
      [Nat.digitChar (y / 1000 % 10), Nat.digitChar (y / 100 % 10),
       Nat.digitChar (y / 10 % 10), Nat.digitChar (y % 10), '-',
       Nat.digitChar (mo / 10 % 10), Nat.digitChar (mo % 10), '-',
       Nat.digitChar (d / 10 % 10), Nat.digitChar (d % 10), 'T',
       Nat.digitChar (hh / 10 % 10), Nat.digitChar (hh % 10), ':',
       Nat.digitChar (mi / 10 % 10), Nat.digitChar (mi % 10), ':',
       Nat.digitChar (s / 10 % 10), Nat.digitChar (s % 10),
       '+', '0', '0', ':', '0', '0'] := by
  simp [formatIso, pad4, pad2, offsetChars, digitChar_zero]

/-- Parsing is a left inverse of rendering on canonical whole-second UTC
datetimes. -/
lemma parseIso_formatIso (dt : PyDateTime)
    (h1 : 1 ≤ dt.year) (h2 : dt.year ≤ 9999) (h3 : 1 ≤ dt.month) (h4 : dt.month ≤ 12)
    (h5 : 1 ≤ dt.day) (h6 : dt.day ≤ daysInMonth dt.year dt.month)
    (h7 : dt.hour ≤ 23) (h8 : dt.minute ≤ 59) (h9 : dt.second ≤ 59)
    (hmic : dt.microsecond = 0) (hoff : dt.utcoffset = some 0) :
    parseIso (formatIso dt) = some dt := by
  obtain ⟨y, mo, d, hh, mi, s, mic, off⟩ := dt
  dsimp only at h1 h2 h3 h4 h5 h6 h7 h8 h9 hmic hoff
  subst hmic
  subst hoff
  have hd99 : d ≤ 99 := by have := daysInMonth_le y mo; omega
  rw [formatIso_canonical]
  simp +decide [parseIso, parseTime, parseOffset,
    digit4_pad4 y (by omega), digit2_pad2 mo (by omega), digit2_pad2 d hd99,
    digit2_pad2 hh (by omega), digit2_pad2 mi (by omega), digit2_pad2 s (by omega),
    digit2_zero, h1, h2, h3, h4, h5, h6, h7, h8, h9]

/-- C6: every successful `normalize_ts` result parses as a whole-second
datetime carrying an explicit UTC offset (`+00:00`), and normalizing the
result again returns it unchanged: `normalize` is idempotent on its
image. -/
theorem claim_C6 (s r : String) (h : normalize_ts s = some r) :
    (∃ dt, parseIso r.data = some dt ∧ dt.utcoffset = some 0 ∧ dt.microsecond = 0) ∧
    normalize_ts r = some r := by
  simp only [normalize_ts] at h
  cases hp : parseIso s.data with
  | none => rw [hp] at h; exact Option.noConfusion h
  | some dt0 =>
    rw [hp] at h
    simp only [Option.some_bind] at h
    cases ha : astimezoneUTC dt0 with
    | none => rw [ha] at h; exact Option.noConfusion h
    | some dtu =>
      rw [ha] at h
      simp only [Option.map_some', Option.some.injEq] at h
      obtain ⟨v1, v2, v3, v4, v5, v6, v7, v8, v9⟩ := parseIso_valid _ _ hp
      obtain ⟨u1, u2, u3, u4, u5, u6, u7, u8, u9, _, uoff⟩ :=
        astimezoneUTC_valid dt0 dtu v1 v2 v3 v4 v5 v6 v7 v8 v9 ha
      have hrt : parseIso (formatIso { dtu with microsecond := 0 }) =
          some { dtu with microsecond := 0 } :=
        parseIso_formatIso { dtu with microsecond := 0 } u1 u2 u3 u4 u5 u6 u7 u8 u9 rfl uoff
      have hrdata : r.data = formatIso { dtu with microsecond := 0 } := by
        rw [← h]
      constructor
      · exact ⟨{ dtu with microsecond := 0 }, by rw [hrdata]; exact hrt, uoff, rfl⟩
      · rw [normalize_ts, hrdata, hrt]
        simp only [Option.some_bind]
        rw [astimezoneUTC_canonical { dtu with microsecond := 0 } u1 u2 u7 u8 u9 uoff]
        simp only [Option.map_some']
        exact congrArg some h

/-- Witness for C6: a sub-second timestamp with a +02:00 offset
normalizes to canonical UTC, and normalizing again is the identity. -/
theorem claim_C6_witness :
    normalize_ts "2024-01-01 12:30:45.123456+02:00" = some "2024-01-01T10:30:45+00:00" ∧
    (∃ dt, parseIso ("2024-01-01T10:30:45+00:00" : String).data = some dt ∧
      dt.utcoffset = some 0 ∧ dt.microsecond = 0) ∧
    normalize_ts "2024-01-01T10:30:45+00:00" = some "2024-01-01T10:30:45+00:00" := by
  have h : normalize_ts "2024-01-01 12:30:45.123456+02:00" =
      some "2024-01-01T10:30:45+00:00" := by decide
  have hc := claim_C6 "2024-01-01 12:30:45.123456+02:00" "2024-01-01T10:30:45+00:00" h
  exact ⟨h, hc.1, hc.2⟩

end GMB
